import Mathlib

/-!
A verification development for the dialect-abstracting data-access layer
of the Python-Telegram-Bot-Template repository.

The definitions below are a shallow embedding of the data-access code:

 * `transform` embeds `_transform` of `app/core/db/adapter.py` (the
   placeholder translator), including its regex scan for `:name` tokens
   (`findall`), Python's `str.replace` (`replaceAll`), Python's
   `dict.get` (`pyGet`), and the `placeholders` dict built by the
   postgres branch (`phFun`).
 * Driver models embed the engine adapters of `app/core/db/engines/`
   (row normalization, transaction exit paths, pool creation, `init`),
   `app/core/db/disabled_impl.py`, and the facade helpers
   (`list_tables`, `get_table_schema`, `drop_all_tables`,
   `clear_all_tables`) of `app/core/db/adapter.py`, and
   `BaseModel.update` of `app/core/db/orm/base_model.py`.

Python strings are embedded as `List Char`; machine-level recursions
(`str.replace`, the regex scan, decimal rendering) are written with an
explicit fuel argument equal to the input length so that every
definition is kernel-computable.
-/

namespace DBCore

/-- A value bound to a SQL parameter (Python values occurring in the data
layer: ints and strings).  Python `None` coming out of `dict.get` is
modelled by `Option.none` one level up, matching `dict.get`'s behavior. -/
inductive Val
  | i (n : Int)
  | s (str : List Char)
deriving DecidableEq, Repr

/-- The four backends selected by `DB_TYPE` in `app/core/db/adapter.py`
(`sqlite`, `postgres`, `mssql`, `none`). -/
inductive DbType
  | sqlite
  | postgres
  | mssql
  | disabled
deriving DecidableEq, Repr

/-- `[A-Za-z_]` — first character of the `:name` regex of `_transform`. -/
def isIdentStart (c : Char) : Bool := c.isAlpha || c = '_'

/-- `[A-Za-z0-9_]` — continuation characters of the `:name` regex. -/
def isIdentCont (c : Char) : Bool := c.isAlphanum || c = '_'

/-- Maximal-munch split: the longest prefix of identifier-continuation
characters, and the rest (the regex engine's greedy `[A-Za-z0-9_]*`). -/
def munch : List Char → List Char × List Char
  | [] => ([], [])
  | c :: rest =>
    if isIdentCont c then
      let p := munch rest
      (c :: p.1, p.2)
    else ([], c :: rest)

/-- Fueled scan embedding `re.findall(r":([A-Za-z_][A-Za-z0-9_]*)", sql)`:
left-to-right, non-overlapping, returning the captured names. -/
def findallFuel : Nat → List Char → List (List Char)
  | 0, _ => []
  | _ + 1, [] => []
  | f + 1, c :: rest =>
    if c = ':' then
      match rest with
      | [] => []
      | c2 :: rest2 =>
        if isIdentStart c2 then
          let p := munch rest2
          (c2 :: p.1) :: findallFuel f p.2
        else
          findallFuel f (c2 :: rest2)
    else
      findallFuel f rest

/-- `re.findall(r":([A-Za-z_][A-Za-z0-9_]*)", sql)` from `_transform`. -/
def findall (s : List Char) : List (List Char) := findallFuel s.length s

/-- Boolean "is a prefix of" (Python `str.startswith`). -/
def isPre : List Char → List Char → Bool
  | [], _ => true
  | _ :: _, [] => false
  | a :: as, b :: bs => a == b && isPre as bs

/-- Fueled embedding of Python `str.replace(old, new)` for nonempty `old`:
replace every non-overlapping occurrence, left to right. -/
def replaceFuel : Nat → List Char → List Char → List Char → List Char
  | 0, s, _, _ => s
  | _ + 1, [], _, _ => []
  | f + 1, c :: rest, old, new =>
    if isPre old (c :: rest) then
      new ++ replaceFuel f ((c :: rest).drop old.length) old new
    else
      c :: replaceFuel f rest old new

/-- Python `sql.replace(old, new)` as used by `_transform`. -/
def replaceAll (s old new : List Char) : List Char :=
  replaceFuel s.length s old new

/-- Python `params.get(n)`: first binding of the key, `none` when the key
is absent (Python `None`). -/
def pyGet : List (List Char × Val) → List Char → Option Val
  | [], _ => none
  | (k, v) :: rest, n => if k = n then some v else pyGet rest n

/-- One decimal digit character, `n % 10` (Python `f"{i}"` digit). -/
def digitChar (n : Nat) : Char :=
  match n % 10 with
  | 0 => '0' | 1 => '1' | 2 => '2' | 3 => '3' | 4 => '4'
  | 5 => '5' | 6 => '6' | 7 => '7' | 8 => '8' | _ => '9'

/-- Fueled decimal rendering of a natural number. -/
def digitsOfFuel : Nat → Nat → List Char
  | 0, n => [digitChar n]
  | f + 1, n => if n < 10 then [digitChar n] else digitsOfFuel f (n / 10) ++ [digitChar n]

/-- Decimal rendering of a natural number (Python `f"{i}"`). -/
def digitsOf (n : Nat) : List Char := digitsOfFuel n n

/-- The dollar placeholder `f"${i}"` built by the postgres branch of
`_transform`. -/
def dollarMarker (i : Nat) : List Char := '$' :: digitsOf i

/-- The `placeholders` dict of the postgres branch of `_transform`: built
by iterating over `uniq` (which is a plain copy of `names`, duplicates
included) with a running index starting at 1; a later assignment to the
same name overwrites an earlier one, exactly as a Python dict does. -/
def phFun : List (List Char) → Nat → List Char → Option (List Char)
  | [], _, _ => none
  | n :: rest, i, m =>
    match phFun rest (i + 1) m with
    | some v => some v
    | none => if m = n then some (dollarMarker i) else none

/-- `_transform(sql, params)` of `app/core/db/adapter.py`.

Python source, line by line:
* `if not params: return sql, []` — `none` or the empty dict;
* `names = re.findall(r":([A-Za-z_][A-Za-z0-9_]*)", sql)`;
* postgres branch: `uniq` is a verbatim copy of `names` (no
  deduplication); `placeholders[n] = f"${i}"` for the running index;
  every `sql.replace(f":{n}", placeholders[n])`; and
  `ordered = [params.get(n) for n in uniq]`;
* other branches: `ordered = [params.get(n) for n in names]` and
  `sql.replace(f":{n}", "?")` for each `n` in `names`. -/
def transform (dt : DbType) (sql : List Char) (params : Option (List (List Char × Val))) :
    List Char × List (Option Val) :=
  match params with
  | none => (sql, [])
  | some ps =>
    if ps = [] then (sql, [])
    else
      let names := findall sql
      if dt = DbType.postgres then
        let ph := phFun names 1
        (names.foldl (fun s n => replaceAll s (':' :: n) ((ph n).getD [])) sql,
         names.map (pyGet ps))
      else
        (names.foldl (fun s n => replaceAll s (':' :: n) ['?']) sql,
         names.map (pyGet ps))

/-- Number of `?` positional markers in a SQL string. -/
def countQ : List Char → Nat
  | [] => 0
  | c :: rest => (if c = '?' then 1 else 0) + countQ rest

/-- Head character is a decimal digit. -/
def headDigit : List Char → Bool
  | [] => false
  | c :: _ => c.isDigit

/-- Number of `$k` positional markers in a SQL string: positions holding
a `$` immediately followed by a digit. -/
def countD : List Char → Nat
  | [] => 0
  | c :: rest => (if c = '$' && headDigit rest then 1 else 0) + countD rest

/-- Positional markers of the dialect the translator targets: `$k` for
postgres, `?` for every other engine. -/
def markerCount (dt : DbType) (s : List Char) : Nat :=
  if dt = DbType.postgres then countD s else countQ s

/-! ## Row shape at the driver boundary (`fetchone` / `fetchall`)

`app/core/db/engines/sqlite.py` returns `await cur.fetchone()` /
`await cur.fetchall()` unchanged — `aiosqlite` with the default row
factory, i.e. positional tuples.  `postgres.py` converts each row with
`dict(row)`; `mssql.py` builds `{cols[i]: row[i] for i in range(len(cols))}`
from `cur.description`. -/

/-- An engine-native row: the positional cell values of one result row. -/
abbrev EngineRow := List Val

/-- What a driver hands the facade for one row: either a column-name to
value mapping (the uniform Record shape) or a raw positional tuple. -/
inductive FetchedRow
  | record (fields : List (List Char × Val))
  | tup (cells : List Val)
deriving DecidableEq, Repr

/-- `FetchedRow.record` discriminator. -/
def FetchedRow.isRec : FetchedRow → Bool
  | .record _ => true
  | .tup _ => false

/-- `SqliteAdapter.fetchone`: returns the cursor row unchanged (a
positional tuple under aiosqlite's default row factory). -/
def sqliteFetchone (cursorRow : Option EngineRow) : Option FetchedRow :=
  cursorRow.map FetchedRow.tup

/-- `SqliteAdapter.fetchall`: returns the cursor rows unchanged. -/
def sqliteFetchall (cursorRows : List EngineRow) : List FetchedRow :=
  cursorRows.map FetchedRow.tup

/-- `PostgresAdapter.fetchone`: `dict(row) if row else None` — the asyncpg
record is turned into a column-name to value mapping. -/
def postgresFetchone (cols : List (List Char)) (cursorRow : Option EngineRow) :
    Option FetchedRow :=
  cursorRow.map (fun r => FetchedRow.record (cols.zip r))

/-- `PostgresAdapter.fetchall`: `[dict(r) for r in rows]`. -/
def postgresFetchall (cols : List (List Char)) (cursorRows : List EngineRow) :
    List FetchedRow :=
  cursorRows.map (fun r => FetchedRow.record (cols.zip r))

/-- `MSSQLAdapter.fetchone`: `{cols[i]: row[i] for i in range(len(cols))}`
with `cols` taken from `cur.description` (rows are assumed at least as
wide as the description, as pyodbc guarantees). -/
def mssqlFetchone (cols : List (List Char)) (cursorRow : Option EngineRow) :
    Option FetchedRow :=
  cursorRow.map (fun r => FetchedRow.record (cols.zip r))

/-- `MSSQLAdapter.fetchall`: the same comprehension over every row. -/
def mssqlFetchall (cols : List (List Char)) (cursorRows : List EngineRow) :
    List FetchedRow :=
  cursorRows.map (fun r => FetchedRow.record (cols.zip r))

/-! ## Transaction scopes

Exit behavior of the scoped transaction objects: `_SqliteTransaction`
(`sqlite.py` — `ROLLBACK` on error, `COMMIT` otherwise, on the single
embedded connection, which stays open), `_PgTransaction` (`postgres.py` —
`try: rollback/commit finally: pool.release(conn)`), and
`_AsyncTransaction` / `_SyncTransaction` (`mssql.py` — `__aexit__` /
`__exit__` close the cursor and release/close the connection; `commit`
and `rollback` exist only as separate methods the caller must invoke). -/

/-- Actions a transaction scope can perform on exit. -/
inductive TxAction
  | commit
  | rollback
  | releaseConn
  | closeCursor
  | closeConn
deriving DecidableEq, Repr

/-- `_SqliteTransaction.__aexit__`: `ROLLBACK` if an error is pending,
else `COMMIT`; the single embedded connection is left idle (no release
action exists). -/
def sqliteTxExit (errored : Bool) : List TxAction :=
  if errored then [TxAction.rollback] else [TxAction.commit]

/-- `_PgTransaction.__aexit__`: rollback on error / commit otherwise, then
(`finally:`) release the borrowed connection back to the pool. -/
def pgTxExit (errored : Bool) : List TxAction :=
  (if errored then [TxAction.rollback] else [TxAction.commit]) ++ [TxAction.releaseConn]

/-- `_AsyncTransaction.__aexit__` (mssql, aioodbc path): close the cursor
and release the connection — no commit and no rollback on either exit
path. -/
def mssqlAsyncTxExit (_errored : Bool) : List TxAction :=
  [TxAction.closeCursor, TxAction.releaseConn]

/-- `_SyncTransaction.__exit__` (mssql, pyodbc path): close the cursor and
close the connection — no commit and no rollback on either exit path. -/
def mssqlSyncTxExit (_errored : Bool) : List TxAction :=
  [TxAction.closeCursor, TxAction.closeConn]

/-! ## Pool creation and `init` idempotence -/

/-- The process configuration fields the engine adapters read
(`app/config.py`).  `POSTGRES_*` supplies only connection-string data;
there are no postgres pool-size settings at all. -/
structure Settings where
  MSSQL_POOL_MIN : Int
  MSSQL_POOL_MAX : Int
  MSSQL_QUERY_TIMEOUT : Int
  SQLITE_PATH : List Char
deriving DecidableEq, Repr

/-- Pool bounds passed to `asyncpg.create_pool` by `PostgresAdapter.init`:
the literals `min_size=1, max_size=10`, whatever the configuration says. -/
def postgresPoolSizes (_cfg : Settings) : Int × Int := (1, 10)

/-- Pool bounds passed to `aioodbc.create_pool` by
`MSSQLAdapter._get_pool`: `int(getattr(settings, "MSSQL_POOL_MIN", 1))`
and `int(getattr(settings, "MSSQL_POOL_MAX", 10))`. -/
def mssqlPoolSizes (cfg : Settings) : Int × Int :=
  (cfg.MSSQL_POOL_MIN, cfg.MSSQL_POOL_MAX)

/-- Resource-creation actions performed by the drivers' `init` paths. -/
inductive InitAction
  | makeDirs
  | connectFile
  | pragmaWal
  | pragmaFk
  | commit
  | createPgPool (minSize maxSize : Int)
  | createOdbcPool (minSize maxSize : Int)
deriving DecidableEq, Repr

/-- `SqliteAdapter.init`: guarded by `if self._conn is None` — creates the
directory and connection and sets the pragmas only when `_conn` is absent;
otherwise it does nothing and keeps the state.  Connections are
represented by a numeric token. -/
def sqliteInit (conn : Option Nat) : Option Nat × List InitAction :=
  match conn with
  | some c => (some c, [])
  | none =>
    (some 0,
     [InitAction.makeDirs, InitAction.connectFile, InitAction.pragmaWal,
      InitAction.pragmaFk, InitAction.commit])

/-- `PostgresAdapter.init`: guarded by `if self._pool is None`; creates
the pool with the literal bounds `(1, 10)` only when `_pool` is absent. -/
def postgresInit (cfg : Settings) (pool : Option (Int × Int)) :
    Option (Int × Int) × List InitAction :=
  match pool with
  | some p => (some p, [])
  | none =>
    (some (postgresPoolSizes cfg),
     [InitAction.createPgPool (postgresPoolSizes cfg).1 (postgresPoolSizes cfg).2])

/-- `MSSQLAdapter._get_pool`: guarded by `if self._pool is None`; creates
the pool with the configured bounds only when `_pool` is absent. -/
def mssqlGetPool (cfg : Settings) (pool : Option (Int × Int)) :
    Option (Int × Int) × List InitAction :=
  match pool with
  | some p => (some p, [])
  | none =>
    (some (mssqlPoolSizes cfg),
     [InitAction.createOdbcPool (mssqlPoolSizes cfg).1 (mssqlPoolSizes cfg).2])

/-! ## The disabled backend (`app/core/db/disabled_impl.py`) -/

/-- The error raised by every operation of `DisabledAdapter`
(`DBDisabledError`, the spec's `BackendDisabledError`). -/
inductive DbError
  | dbDisabled (msg : List Char)
deriving DecidableEq, Repr

/-- I/O actions a driver could perform against an engine. -/
inductive IOAction
  | engineCall (sql : List Char)
deriving DecidableEq, Repr

/-- The message every `DisabledAdapter` operation raises with. -/
def disabledMsg : List Char := "Database is disabled (DB_TYPE=none)".toList

/-- `DisabledAdapter.execute`: raises unconditionally; the returned trace
records the I/O performed (none). -/
def disabledExecute (_sql : List Char) (_args : List (Option Val)) :
    Except DbError Int × List IOAction :=
  (Except.error (DbError.dbDisabled disabledMsg), [])

/-- `DisabledAdapter.fetchone`: raises unconditionally, no I/O. -/
def disabledFetchone (_sql : List Char) (_args : List (Option Val)) :
    Except DbError (Option FetchedRow) × List IOAction :=
  (Except.error (DbError.dbDisabled disabledMsg), [])

/-- `DisabledAdapter.fetchall`: raises unconditionally, no I/O. -/
def disabledFetchall (_sql : List Char) (_args : List (Option Val)) :
    Except DbError (List FetchedRow) × List IOAction :=
  (Except.error (DbError.dbDisabled disabledMsg), [])

/-- `DisabledAdapter.transaction`: raises unconditionally, no I/O. -/
def disabledTransaction : Except DbError Unit × List IOAction :=
  (Except.error (DbError.dbDisabled disabledMsg), [])

/-! ## Facade helpers of `app/core/db/adapter.py` -/

/-- A driver-level `fetchall` oracle: what the active driver would return
for a given SQL text.  The facade models below count how many times they
consult it. -/
abbrev FetchOracle := List Char → Except DbError (List (List (List Char × Val)))

/-- `str(x)` for an extracted cell: Python renders a missing key
(`r.get(...)` returning `None`) as the string `"None"`. -/
def pyStr : Option Val → List Char
  | some (Val.s s) => s
  | some (Val.i n) =>
    if n < 0 then '-' :: digitsOf n.natAbs else digitsOf n.natAbs
  | none => "None".toList

/-- Row lookup `r.get(col)` for the facade's catalog queries. -/
def rowGet (r : List (List Char × Val)) (col : List Char) : Option Val :=
  pyGet r col

/-- `list_tables()`: one catalog query per real dialect, extracting the
name column from each row; for `DB_TYPE=none` it falls through every
branch and returns `[]` without touching the driver.  The second
component counts driver invocations. -/
def listTables (dt : DbType) (driver : FetchOracle) :
    Except DbError (List (List Char)) × Nat :=
  match dt with
  | DbType.sqlite =>
    (match driver ("SELECT name FROM sqlite_master WHERE type='table' ORDER BY name".toList) with
     | Except.error e => Except.error e
     | Except.ok rows => Except.ok (rows.map (fun r => pyStr (rowGet r ("name".toList)))), 1)
  | DbType.postgres =>
    (match driver ("SELECT table_name FROM information_schema.tables WHERE table_schema='public' ORDER BY table_name".toList) with
     | Except.error e => Except.error e
     | Except.ok rows => Except.ok (rows.map (fun r => pyStr (rowGet r ("table_name".toList)))), 1)
  | DbType.mssql =>
    (match driver ("SELECT name FROM sys.tables ORDER BY name".toList) with
     | Except.error e => Except.error e
     | Except.ok rows => Except.ok (rows.map (fun r => pyStr (rowGet r ("name".toList)))), 1)
  | DbType.disabled => (Except.ok [], 0)

/-- `get_table_schema(table)`: one introspection query per real dialect,
building a column-name to declared-type mapping; for `DB_TYPE=none` it
falls through every branch and returns `{}` without touching the driver. -/
def getTableSchema (dt : DbType) (_table : List Char) (driver : FetchOracle) :
    Except DbError (List (List Char × List Char)) × Nat :=
  match dt with
  | DbType.sqlite =>
    (match driver ("PRAGMA table_info(:t)".toList) with
     | Except.error e => Except.error e
     | Except.ok rows =>
       Except.ok (rows.map (fun r =>
         (pyStr (rowGet r ("name".toList)), pyStr (rowGet r ("type".toList))))), 1)
  | DbType.postgres =>
    (match driver ("SELECT column_name,data_type FROM information_schema.columns WHERE table_schema='public' AND table_name=:t ORDER BY ordinal_position".toList) with
     | Except.error e => Except.error e
     | Except.ok rows =>
       Except.ok (rows.map (fun r =>
         (pyStr (rowGet r ("column_name".toList)), pyStr (rowGet r ("data_type".toList))))), 1)
  | DbType.mssql =>
    (match driver ("SELECT c.name AS column_name, t.name AS data_type FROM sys.columns c JOIN sys.types t ON c.user_type_id=t.user_type_id WHERE c.object_id=OBJECT_ID(:t) ORDER BY c.column_id".toList) with
     | Except.error e => Except.error e
     | Except.ok rows =>
       Except.ok (rows.map (fun r =>
         (pyStr (rowGet r ("column_name".toList)), pyStr (rowGet r ("data_type".toList))))), 1)
  | DbType.disabled => (Except.ok [], 0)

/-- The per-table DROP statement each dialect branch of `drop_all_tables`
interpolates the table name into. -/
def dropStmt (dt : DbType) (t : List Char) : List Char :=
  match dt with
  | DbType.postgres => "DROP TABLE IF EXISTS public.".toList ++ t ++ " CASCADE".toList
  | DbType.sqlite => "DROP TABLE IF EXISTS ".toList ++ t
  | DbType.mssql =>
    "IF OBJECT_ID('".toList ++ t ++ "','U') IS NOT NULL DROP TABLE ".toList ++ t
  | DbType.disabled => []

/-- The bare `for t in tables: await db_adapter.execute(stmt(t))` loop of
`drop_all_tables` / `clear_all_tables`: statements are issued in order;
an exception from the engine propagates out of the loop at once.  Returns
the statements actually issued (the failing one included, since it was
attempted) and whether the loop ran to completion. -/
def runBatch (stmts : List (List Char)) (failsOn : List Char → Bool) :
    List (List Char) × Bool :=
  match stmts with
  | [] => ([], true)
  | s :: rest =>
    if failsOn s then ([s], false)
    else
      let r := runBatch rest failsOn
      (s :: r.1, r.2)

/-- `drop_all_tables()`: iterate the listed tables, issuing the
dialect-specific per-table DROP through the bare loop. -/
def dropAllTables (dt : DbType) (tables : List (List Char)) (failsOn : List Char → Bool) :
    List (List Char) × Bool :=
  runBatch (tables.map (dropStmt dt)) failsOn

/-- `clear_all_tables()`: iterate the listed tables, issuing
`DELETE FROM {t}` through the bare loop. -/
def clearAllTables (tables : List (List Char)) (failsOn : List Char → Bool) :
    List (List Char) × Bool :=
  runBatch (tables.map (fun t => "DELETE FROM ".toList ++ t)) failsOn

/-! ## `BaseModel.update` (`app/core/db/orm/base_model.py`) -/

/-- `", ".join(f"{c} = :{c}" for c in keys)` / `" AND ".join(...)`. -/
def joinWith (sep : List Char) : List (List Char) → List Char
  | [] => []
  | [x] => x
  | x :: rest => x ++ sep ++ joinWith sep rest

/-- `f"{c} = :{c}"`. -/
def eqExpr (c : List Char) : List Char := c ++ " = :".toList ++ c

/-- The Python dict merge `{**values, **filters}`: the keys of `values`
in order (a colliding key taking its value from `filters`), then the keys
of `filters` that are not in `values`. -/
def dictMerge (values filters : List (List Char × Val)) : List (List Char × Val) :=
  values.map (fun kv => (kv.1, (pyGet filters kv.1).getD kv.2)) ++
    filters.filter (fun kv => pyGet values kv.1 = none)

/-- The SQL text and merged parameter mapping `BaseModel.update` hands to
`adapter.execute` — built unconditionally; there is no disjointness check
anywhere on the way. -/
def baseModelUpdate (table : List Char) (filters values : List (List Char × Val)) :
    List Char × List (List Char × Val) :=
  ("UPDATE ".toList ++ table ++ " SET ".toList ++
     joinWith (", ".toList) (values.map (fun kv => eqExpr kv.1)) ++
     " WHERE ".toList ++
     joinWith (" AND ".toList) (filters.map (fun kv => eqExpr kv.1)),
   dictMerge values filters)

/-! ## Well-formed named-parameter statements

To reason about the translator we describe a named-parameter SQL string
by its decomposition into literal text and `:name` tokens.  `render`
rebuilds the flat string; the `SegsWF` side conditions say exactly that
the decomposition is the one the regex scan of `_transform` recovers. -/

/-- One literal-text / parameter-token pair of a named-parameter SQL
string: `txt` is the literal text standing before the token `:name`. -/
structure Seg where
  txt : List Char
  name : List Char
deriving DecidableEq, Repr

/-- Flatten a decomposition back into the SQL string: each segment
contributes `txt ++ ":" ++ name`, and `tail` is the literal text after
the last token. -/
def render : List Seg → List Char → List Char
  | [], tail => tail
  | sg :: rest, tail => sg.txt ++ ':' :: (sg.name ++ render rest tail)

/-- The token name is a well-formed identifier for the `:name` regex. -/
def validIdent : List Char → Bool
  | [] => false
  | c :: cs => isIdentStart c && cs.all isIdentCont

/-- The first character (if any) cannot continue an identifier — the
boundary condition after a maximal-munch token. -/
def headNotCont : List Char → Bool
  | [] => true
  | c :: _ => !(isIdentCont c)

/-- Boolean character membership in a string. -/
def hasChar (ch : Char) : List Char → Bool
  | [] => false
  | c :: rest => (c == ch) || hasChar ch rest

/-- The decomposition is faithful: literal text holds no `:` (so every
colon in the rendered string starts a token), names are well-formed
identifiers, and each token is followed by a non-identifier character
(or the end), so the regex's greedy scan stops exactly at the token. -/
def SegsWF : List Seg → List Char → Bool
  | [], tail => !(hasChar ':' tail)
  | sg :: rest, tail =>
    !(hasChar ':' sg.txt) && validIdent sg.name && headNotCont (render rest tail) &&
      SegsWF rest tail

/-- No literal text (segment texts and tail) contains the character. -/
def charFree (ch : Char) : List Seg → List Char → Bool
  | [], tail => !(hasChar ch tail)
  | sg :: rest, tail => !(hasChar ch sg.txt) && charFree ch rest tail

/-- No name in the list is a prefix of another (in particular the names
are pairwise distinct), so one token's textual replacement can never eat
into another token. -/
def pairwiseNP : List (List Char) → Bool
  | [] => true
  | n :: rest => rest.all (fun m => !(isPre n m) && !(isPre m n)) && pairwiseNP rest

/-- The value mapping supplies a binding for every listed name. -/
def coversB (ps : List (List Char × Val)) (names : List (List Char)) : Bool :=
  names.all (fun n => (pyGet ps n).isSome)

/-- A piece of a partially rewritten SQL string: a still-unreplaced
`:name` token, or literal text (original text or an inserted marker). -/
inductive Item
  | tok (name : List Char)
  | lit (s : List Char)
deriving DecidableEq, Repr

/-- Flatten a piece list into the SQL string. -/
def renderItems : List Item → List Char
  | [] => []
  | Item.tok n :: rest => ':' :: (n ++ renderItems rest)
  | Item.lit s :: rest => s ++ renderItems rest

/-- The piece decomposition of a rendered segment list. -/
def itemsOf : List Seg → List Char → List Item
  | [], tail => [Item.lit tail]
  | sg :: rest, tail => Item.lit sg.txt :: Item.tok sg.name :: itemsOf rest tail

/-- Replace the token named `n` by the literal marker `q`. -/
def replOne (n q : List Char) : Item → Item
  | Item.tok m => if m = n then Item.lit q else Item.tok m
  | Item.lit s => Item.lit s

/-- The fully rewritten string: every token replaced by its marker. -/
def finalRender (marker : List Char → List Char) : List Seg → List Char → List Char
  | [], tail => tail
  | sg :: rest, tail => sg.txt ++ marker sg.name ++ finalRender marker rest tail

/-! ## Lemmas about `isPre` and `replaceFuel` -/

theorem isPre_append_self (a b : List Char) : isPre a (a ++ b) = true := by
  induction a with
  | nil => rfl
  | cons c rest ih => simp [isPre, ih]

theorem isPre_refl (a : List Char) : isPre a a = true := by
  have h := isPre_append_self a []
  simp at h
  exact h

theorem isPre_append_cases {p a b : List Char} (h : isPre p (a ++ b) = true) :
    isPre p a = true ∨ isPre a p = true := by
  induction p generalizing a with
  | nil => exact Or.inl rfl
  | cons x p' ih =>
    cases a with
    | nil => exact Or.inr rfl
    | cons y a' =>
      simp only [List.cons_append, isPre, Bool.and_eq_true, beq_iff_eq] at h
      obtain ⟨rfl, h2⟩ := h
      rcases ih h2 with h3 | h3
      · exact Or.inl (by simp [isPre, h3])
      · exact Or.inr (by simp [isPre, h3])

theorem drop_len_append (a b : List Char) : (a ++ b).drop a.length = b := by
  induction a with
  | nil => rfl
  | cons c rest ih => simp [ih]

theorem replaceFuel_nil (f : Nat) (old new : List Char) :
    replaceFuel f [] old new = [] := by
  cases f <;> rfl

theorem replace_skip {t : List Char} (hcolon : ':' ∉ t) (n q : List Char) :
    ∀ f s, (t ++ s).length ≤ f →
      replaceFuel f (t ++ s) (':' :: n) q =
        t ++ replaceFuel (f - t.length) s (':' :: n) q := by
  induction t with
  | nil => intro f s _; simp
  | cons c t' ih =>
    intro f s hf
    have hc : c ≠ ':' := fun hc => hcolon (hc ▸ List.mem_cons_self c t')
    cases f with
    | zero => simp at hf
    | succ f' =>
      have hpre : isPre (':' :: n) (c :: (t' ++ s)) = false := by
        simp only [isPre, Bool.and_eq_false_iff]
        left
        simp [beq_eq_false_iff_ne]
        exact fun h => hc h.symm
      have hft : (t' ++ s).length ≤ f' := by
        have hlen : ((c :: t') ++ s).length = (t' ++ s).length + 1 := by simp
        omega
      have hnotmem : ':' ∉ t' := fun h => hcolon (List.mem_cons_of_mem _ h)
      calc replaceFuel (f' + 1) ((c :: t') ++ s) (':' :: n) q
          = replaceFuel (f' + 1) (c :: (t' ++ s)) (':' :: n) q := by simp
        _ = c :: replaceFuel f' (t' ++ s) (':' :: n) q := by
            rw [replaceFuel, hpre]; simp
        _ = c :: (t' ++ replaceFuel (f' - t'.length) s (':' :: n) q) := by
            rw [ih hnotmem f' s hft]
        _ = (c :: t') ++ replaceFuel ((f' + 1) - (c :: t').length) s (':' :: n) q := by
            have harith : (f' + 1) - (c :: t').length = f' - t'.length := by
              simp only [List.length_cons]
              omega
            rw [harith]
            simp

/-- One `str.replace(":" + n, q)` pass over a piece list: under the
well-formedness conditions it rewrites exactly the tokens named `n` and
nothing else. -/
theorem replace_items (n q : List Char) :
    ∀ (L : List Item) (f : Nat), (renderItems L).length ≤ f →
      (∀ s, Item.lit s ∈ L → ':' ∉ s) →
      (∀ m, Item.tok m ∈ L → ':' ∉ m ∧
        (m ≠ n → isPre n m = false ∧ isPre m n = false)) →
      replaceFuel f (renderItems L) (':' :: n) q =
        renderItems (L.map (replOne n q)) := by
  intro L
  induction L with
  | nil =>
    intro f _ _ _
    simp [renderItems, replaceFuel_nil]
  | cons it L' ih =>
    intro f hf hl ht
    have hl' : ∀ s, Item.lit s ∈ L' → ':' ∉ s :=
      fun s hs => hl s (List.mem_cons_of_mem _ hs)
    have ht' : ∀ m, Item.tok m ∈ L' → ':' ∉ m ∧
        (m ≠ n → isPre n m = false ∧ isPre m n = false) :=
      fun m hm => ht m (List.mem_cons_of_mem _ hm)
    cases it with
    | lit s =>
      have hs : ':' ∉ s := hl s (List.mem_cons_self _ _)
      have hrw : renderItems (Item.lit s :: L') = s ++ renderItems L' := rfl
      rw [hrw] at hf ⊢
      rw [replace_skip hs n q f (renderItems L') hf]
      have hfr : (renderItems L').length ≤ f - s.length := by
        have : (s ++ renderItems L').length = s.length + (renderItems L').length := by
          simp
        omega
      rw [ih (f - s.length) hfr hl' ht']
      rfl
    | tok m =>
      have hrw : renderItems (Item.tok m :: L') = ':' :: (m ++ renderItems L') := rfl
      rw [hrw] at hf ⊢
      cases f with
      | zero => simp at hf
      | succ f' =>
        have hm := ht m (List.mem_cons_self _ _)
        by_cases hmn : m = n
        · subst hmn
          have hpre : isPre (':' :: m) (':' :: (m ++ renderItems L')) = true := by
            simp [isPre, isPre_append_self]
          rw [replaceFuel, hpre]
          simp only [if_true]
          have hdrop : (':' :: (m ++ renderItems L')).drop (':' :: m).length
              = renderItems L' := by
            simp only [List.length_cons, List.drop_succ_cons]
            exact drop_len_append m (renderItems L')
          rw [hdrop]
          have hfr : (renderItems L').length ≤ f' := by
            have : (':' :: (m ++ renderItems L')).length
                = m.length + (renderItems L').length + 1 := by simp
            omega
          rw [ih f' hfr hl' ht']
          have hrepl : replOne m q (Item.tok m) = Item.lit q := by
            simp [replOne]
          simp only [List.map_cons, hrepl]
          rfl
        · have hnp := hm.2 hmn
          have hpre : isPre (':' :: n) (':' :: (m ++ renderItems L')) = false := by
            simp only [isPre, Bool.and_eq_true, beq_self_eq_true, true_and,
              Bool.true_and]
            by_contra hcontra
            rw [Bool.not_eq_false] at hcontra
            rcases isPre_append_cases hcontra with h1 | h1
            · rw [hnp.1] at h1; exact Bool.false_ne_true h1
            · rw [hnp.2] at h1; exact Bool.false_ne_true h1
          rw [replaceFuel, hpre]
          simp only [Bool.false_eq_true, if_false]
          have hfr : (m ++ renderItems L').length ≤ f' := by
            have : (':' :: (m ++ renderItems L')).length
                = (m ++ renderItems L').length + 1 := by simp
            omega
          rw [replace_skip hm.1 n q f' (renderItems L') hfr]
          have hfr2 : (renderItems L').length ≤ f' - m.length := by
            have : (m ++ renderItems L').length
                = m.length + (renderItems L').length := by simp
            omega
          rw [ih (f' - m.length) hfr2 hl' ht']
          have hrepl : replOne n q (Item.tok m) = Item.tok m := by
            simp [replOne, hmn]
          simp only [List.map_cons, hrepl]
          rfl

theorem lit_mem_map_replOne {s n q : List Char} {L : List Item}
    (h : Item.lit s ∈ L.map (replOne n q)) :
    Item.lit s ∈ L ∨ s = q := by
  rw [List.mem_map] at h
  obtain ⟨it, hit, heq⟩ := h
  cases it with
  | lit s' =>
    simp only [replOne] at heq
    rw [Item.lit.injEq] at heq
    exact Or.inl (heq ▸ hit)
  | tok m =>
    by_cases hmn : m = n
    · simp only [replOne, hmn, if_pos] at heq
      rw [Item.lit.injEq] at heq
      exact Or.inr heq.symm
    · simp [replOne, hmn] at heq

theorem tok_mem_map_replOne {m n q : List Char} {L : List Item}
    (h : Item.tok m ∈ L.map (replOne n q)) : Item.tok m ∈ L := by
  rw [List.mem_map] at h
  obtain ⟨it, hit, heq⟩ := h
  cases it with
  | lit s' => simp [replOne] at heq
  | tok m' =>
    by_cases hmn : m' = n
    · simp [replOne, hmn] at heq
    · simp only [replOne, hmn, if_neg, if_false] at heq
      rw [Item.tok.injEq] at heq
      exact heq ▸ hit

/-- The whole replacement loop of `_transform` over a piece list. -/
theorem foldl_replace (marker : List Char → List Char) :
    ∀ (ns : List (List Char)) (L : List Item),
      (∀ s, Item.lit s ∈ L → ':' ∉ s) →
      (∀ n' ∈ ns, ':' ∉ marker n') →
      (∀ m, Item.tok m ∈ L → ':' ∉ m ∧
        (∀ n' ∈ ns, m ≠ n' → isPre n' m = false ∧ isPre m n' = false)) →
      ns.foldl (fun s n => replaceAll s (':' :: n) (marker n)) (renderItems L) =
        renderItems (ns.foldl (fun L n => L.map (replOne n (marker n))) L) := by
  intro ns
  induction ns with
  | nil => intro L _ _ _; rfl
  | cons n0 ns' ih =>
    intro L hl hmk ht
    have hstep : replaceAll (renderItems L) (':' :: n0) (marker n0)
        = renderItems (L.map (replOne n0 (marker n0))) := by
      apply replace_items
      · exact Nat.le_refl _
      · exact hl
      · intro m hm
        obtain ⟨h1, h2⟩ := ht m hm
        exact ⟨h1, fun hmn => h2 n0 (List.mem_cons_self _ _) hmn⟩
    simp only [List.foldl_cons]
    rw [hstep]
    apply ih
    · intro s hs
      rcases lit_mem_map_replOne hs with h | h
      · exact hl s h
      · exact h ▸ hmk n0 (List.mem_cons_self _ _)
    · exact fun n' hn' => hmk n' (List.mem_cons_of_mem _ hn')
    · intro m hm
      obtain ⟨h1, h2⟩ := ht m (tok_mem_map_replOne hm)
      exact ⟨h1, fun n' hn' => h2 n' (List.mem_cons_of_mem _ hn')⟩

theorem foldl_map_comm (g : List Char → Item → Item) :
    ∀ (ns : List (List Char)) (L : List Item),
      ns.foldl (fun L n => L.map (g n)) L =
        L.map (fun it => ns.foldl (fun it n => g n it) it) := by
  intro ns
  induction ns with
  | nil => intro L; simp
  | cons n0 ns' ih =>
    intro L
    simp only [List.foldl_cons]
    rw [ih (L.map (g n0)), List.map_map]
    rfl

theorem itemFold_lit (marker : List Char → List Char) (ns : List (List Char))
    (s : List Char) :
    ns.foldl (fun it n => replOne n (marker n) it) (Item.lit s) = Item.lit s := by
  induction ns with
  | nil => rfl
  | cons n0 ns' ih =>
    simp only [List.foldl_cons]
    exact ih

theorem itemFold_tok (marker : List Char → List Char) :
    ∀ (ns : List (List Char)) (m : List Char), m ∈ ns →
      ns.foldl (fun it n => replOne n (marker n) it) (Item.tok m)
        = Item.lit (marker m) := by
  intro ns
  induction ns with
  | nil => intro m hm; simp at hm
  | cons n0 ns' ih =>
    intro m hm
    simp only [List.foldl_cons]
    by_cases hmn : m = n0
    · subst hmn
      have hr : replOne m (marker m) (Item.tok m) = Item.lit (marker m) := by
        simp [replOne]
      rw [hr, itemFold_lit]
    · have hr : replOne n0 (marker n0) (Item.tok m) = Item.tok m := by
        simp [replOne, hmn]
      rw [hr]
      apply ih
      rcases List.mem_cons.mp hm with h | h
      · exact absurd h hmn
      · exact h

theorem renderItems_itemsOf (segs : List Seg) (tail : List Char) :
    renderItems (itemsOf segs tail) = render segs tail := by
  induction segs with
  | nil => simp [itemsOf, renderItems, render]
  | cons sg rest ih => simp [itemsOf, renderItems, render, ih]

theorem map_fold_itemsOf (marker : List Char → List Char) (ns : List (List Char)) :
    ∀ (segs : List Seg) (tail : List Char),
      (∀ sg ∈ segs, sg.name ∈ ns) →
      renderItems ((itemsOf segs tail).map
        (fun it => ns.foldl (fun it n => replOne n (marker n) it) it)) =
        finalRender marker segs tail := by
  intro segs
  induction segs with
  | nil =>
    intro tail _
    simp only [itemsOf, List.map_cons, List.map_nil, itemFold_lit]
    simp [renderItems, finalRender]
  | cons sg rest ih =>
    intro tail hmem
    have h1 : sg.name ∈ ns := hmem sg (List.mem_cons_self _ _)
    have hrest : ∀ sg' ∈ rest, sg'.name ∈ ns :=
      fun sg' h => hmem sg' (List.mem_cons_of_mem _ h)
    simp only [itemsOf, List.map_cons, itemFold_lit, itemFold_tok marker ns sg.name h1]
    show sg.txt ++ (marker sg.name ++ renderItems _) = _
    rw [ih tail hrest]
    simp [finalRender]

/-! ## Counting positional markers -/

theorem hasChar_false_not_mem {l : List Char} {c : Char}
    (h : hasChar c l = false) : c ∉ l := by
  intro hm
  induction l with
  | nil => simp at hm
  | cons x rest ih =>
    simp only [hasChar, Bool.or_eq_false_iff, beq_eq_false_iff_ne] at h
    rcases List.mem_cons.mp hm with h1 | h1
    · exact h.1 h1.symm
    · exact ih h.2 h1

theorem countQ_append (a b : List Char) : countQ (a ++ b) = countQ a + countQ b := by
  induction a with
  | nil => simp [countQ]
  | cons c rest ih =>
    show countQ (c :: (rest ++ b)) = countQ (c :: rest) + countQ b
    rw [countQ, countQ, ih]
    omega

theorem countQ_zero {s : List Char} (h : '?' ∉ s) : countQ s = 0 := by
  induction s with
  | nil => rfl
  | cons c rest ih =>
    have hc : c ≠ '?' := fun hc => h (hc ▸ List.mem_cons_self _ _)
    have hr : '?' ∉ rest := fun hm => h (List.mem_cons_of_mem _ hm)
    simp [countQ, hc, ih hr]

theorem countQ_final (marker : List Char → List Char) :
    ∀ (segs : List Seg) (tail : List Char),
      charFree '?' segs tail = true →
      (∀ sg ∈ segs, countQ (marker sg.name) = 1) →
      countQ (finalRender marker segs tail) = segs.length := by
  intro segs
  induction segs with
  | nil =>
    intro tail hfree _
    simp only [charFree, Bool.not_eq_true'] at hfree
    have : '?' ∉ tail := hasChar_false_not_mem hfree
    simp [finalRender, countQ_zero this]
  | cons sg rest ih =>
    intro tail hfree hmk
    simp only [charFree, Bool.and_eq_true, Bool.not_eq_true'] at hfree
    have htxt : '?' ∉ sg.txt := hasChar_false_not_mem hfree.1
    have h1 : countQ (marker sg.name) = 1 := hmk sg (List.mem_cons_self _ _)
    have hrest := ih tail hfree.2 (fun sg' h => hmk sg' (List.mem_cons_of_mem _ h))
    simp only [finalRender, countQ_append, countQ_zero htxt, h1, hrest,
      List.length_cons]
    omega

theorem countD_skip {a : List Char} (h : '$' ∉ a) (b : List Char) :
    countD (a ++ b) = countD b := by
  induction a with
  | nil => rfl
  | cons c rest ih =>
    have hc : c ≠ '$' := fun hc => h (hc ▸ List.mem_cons_self _ _)
    have hr : '$' ∉ rest := fun hm => h (List.mem_cons_of_mem _ hm)
    simp [countD, hc, ih hr]

theorem countD_dollar {ds : List Char} (hne : ds ≠ [])
    (hdig : ∀ c ∈ ds, c.isDigit = true) (b : List Char) :
    countD (('$' :: ds) ++ b) = 1 + countD (ds ++ b) := by
  cases ds with
  | nil => exact absurd rfl hne
  | cons d ds' =>
    have hd : d.isDigit = true := hdig d (List.mem_cons_self _ _)
    simp [countD, headDigit, hd]

theorem isDigit_ne_dollar {c : Char} (h : c.isDigit = true) : c ≠ '$' := by
  intro hc
  rw [hc] at h
  exact absurd h (by decide)

theorem isDigit_ne_colon {c : Char} (h : c.isDigit = true) : c ≠ ':' := by
  intro hc
  rw [hc] at h
  exact absurd h (by decide)

theorem countD_final (marker : List Char → List Char) :
    ∀ (segs : List Seg) (tail : List Char),
      charFree '$' segs tail = true →
      (∀ sg ∈ segs, ∃ ds, marker sg.name = '$' :: ds ∧ ds ≠ [] ∧
        ∀ c ∈ ds, c.isDigit = true) →
      countD (finalRender marker segs tail) = segs.length := by
  intro segs
  induction segs with
  | nil =>
    intro tail hfree _
    simp only [charFree, Bool.not_eq_true'] at hfree
    have hmem : '$' ∉ tail := hasChar_false_not_mem hfree
    have h0 : countD (tail ++ []) = countD ([] : List Char) := countD_skip hmem []
    simp only [List.append_nil] at h0
    simp [finalRender, h0, countD]
  | cons sg rest ih =>
    intro tail hfree hmk
    simp only [charFree, Bool.and_eq_true, Bool.not_eq_true'] at hfree
    have htxt : '$' ∉ sg.txt := hasChar_false_not_mem hfree.1
    obtain ⟨ds, hds, hne, hdig⟩ := hmk sg (List.mem_cons_self _ _)
    have hnods : '$' ∉ ds := fun hm => isDigit_ne_dollar (hdig _ hm) rfl
    have hrest := ih tail hfree.2 (fun sg' h => hmk sg' (List.mem_cons_of_mem _ h))
    calc countD (finalRender marker (sg :: rest) tail)
        = countD (sg.txt ++ (marker sg.name ++ finalRender marker rest tail)) := by
          simp [finalRender]
      _ = countD (marker sg.name ++ finalRender marker rest tail) :=
          countD_skip htxt _
      _ = countD (('$' :: ds) ++ finalRender marker rest tail) := by rw [hds]
      _ = 1 + countD (ds ++ finalRender marker rest tail) := countD_dollar hne hdig _
      _ = 1 + countD (finalRender marker rest tail) := by rw [countD_skip hnods]
      _ = (sg :: rest).length := by simp [hrest]; omega

/-! ## Decimal digits and the placeholders dict -/

theorem digitChar_isDigit (n : Nat) : (digitChar n).isDigit = true := by
  unfold digitChar
  split <;> decide

theorem digitsOfFuel_spec : ∀ (f n : Nat),
    digitsOfFuel f n ≠ [] ∧ ∀ c ∈ digitsOfFuel f n, c.isDigit = true := by
  intro f
  induction f with
  | zero =>
    intro n
    refine ⟨by simp [digitsOfFuel], ?_⟩
    intro c hc
    simp only [digitsOfFuel, List.mem_singleton] at hc
    exact hc ▸ digitChar_isDigit n
  | succ f' ih =>
    intro n
    by_cases h : n < 10
    · refine ⟨by simp [digitsOfFuel, h], ?_⟩
      intro c hc
      simp only [digitsOfFuel, if_pos h, List.mem_singleton] at hc
      exact hc ▸ digitChar_isDigit n
    · obtain ⟨hne, hdig⟩ := ih (n / 10)
      refine ⟨?_, ?_⟩
      · simp only [digitsOfFuel, if_neg h]
        intro hcontra
        rcases List.append_eq_nil.mp hcontra with ⟨h1, _⟩
        exact hne h1
      · intro c hc
        simp only [digitsOfFuel, if_neg h, List.mem_append, List.mem_singleton] at hc
        rcases hc with hc | hc
        · exact hdig c hc
        · exact hc ▸ digitChar_isDigit n

theorem digitsOf_spec (n : Nat) :
    digitsOf n ≠ [] ∧ ∀ c ∈ digitsOf n, c.isDigit = true :=
  digitsOfFuel_spec n n

theorem dollarMarker_no_colon (i : Nat) : ':' ∉ dollarMarker i := by
  intro hm
  rcases List.mem_cons.mp hm with h | h
  · exact absurd h.symm (by decide)
  · exact isDigit_ne_colon ((digitsOf_spec i).2 _ h) rfl

theorem phFun_shape : ∀ (ns : List (List Char)) (b : Nat) (m v : List Char),
    phFun ns b m = some v → ∃ i, v = dollarMarker i := by
  intro ns
  induction ns with
  | nil => intro b m v h; simp [phFun] at h
  | cons n0 ns' ih =>
    intro b m v h
    rw [phFun] at h
    cases hrec : phFun ns' (b + 1) m with
    | some v' =>
      rw [hrec] at h
      simp only [Option.some.injEq] at h
      exact h ▸ ih (b + 1) m v' hrec
    | none =>
      rw [hrec] at h
      by_cases hmn : m = n0
      · simp only [if_pos hmn, Option.some.injEq] at h
        exact ⟨b, h.symm⟩
      · simp [hmn] at h

theorem phFun_covers : ∀ (ns : List (List Char)) (b : Nat) (m : List Char),
    m ∈ ns → ∃ v, phFun ns b m = some v := by
  intro ns
  induction ns with
  | nil => intro b m hm; simp at hm
  | cons n0 ns' ih =>
    intro b m hm
    rw [phFun]
    by_cases hmem : m ∈ ns'
    · obtain ⟨v, hv⟩ := ih (b + 1) m hmem
      exact ⟨v, by rw [hv]⟩
    · have hmn : m = n0 := by
        rcases List.mem_cons.mp hm with h | h
        · exact h
        · exact absurd h hmem
      cases hrec : phFun ns' (b + 1) m with
      | some v => exact ⟨v, rfl⟩
      | none => exact ⟨dollarMarker b, by simp [hmn]⟩

theorem phMarker_shape {ns : List (List Char)} {m : List Char} (hm : m ∈ ns) :
    ∃ i, (phFun ns 1 m).getD [] = dollarMarker i := by
  obtain ⟨v, hv⟩ := phFun_covers ns 1 m hm
  obtain ⟨i, hi⟩ := phFun_shape ns 1 m v hv
  exact ⟨i, by rw [hv, hi]; rfl⟩

/-! ## The regex scan recovers the token decomposition -/

theorem munch_append {a : List Char} (ha : ∀ c ∈ a, isIdentCont c = true) :
    ∀ {b : List Char}, headNotCont b = true → munch (a ++ b) = (a, b) := by
  induction a with
  | nil =>
    intro b hb
    cases b with
    | nil => rfl
    | cons c rest =>
      simp only [headNotCont, Bool.not_eq_true'] at hb
      simp [munch, hb]
  | cons c a' ih =>
    intro b hb
    have hc : isIdentCont c = true := ha c (List.mem_cons_self _ _)
    have ha' : ∀ x ∈ a', isIdentCont x = true :=
      fun x h => ha x (List.mem_cons_of_mem _ h)
    simp [munch, hc, ih ha' hb]

theorem findallFuel_colonFree {s : List Char} (h : ':' ∉ s) (f : Nat) :
    findallFuel f s = [] := by
  induction f generalizing s with
  | zero => rfl
  | succ f' ih =>
    cases s with
    | nil => rfl
    | cons c rest =>
      have hc : c ≠ ':' := fun hc => h (hc ▸ List.mem_cons_self _ _)
      have hr : ':' ∉ rest := fun hm => h (List.mem_cons_of_mem _ hm)
      simp only [findallFuel, if_neg hc]
      exact ih hr

theorem findallFuel_skip {t : List Char} (h : ':' ∉ t) (s : List Char) :
    ∀ f, (t ++ s).length ≤ f →
      findallFuel f (t ++ s) = findallFuel (f - t.length) s := by
  induction t with
  | nil => intro f _; simp
  | cons c t' ih =>
    intro f hf
    have hc : c ≠ ':' := fun hc => h (hc ▸ List.mem_cons_self c t')
    have hr : ':' ∉ t' := fun hm => h (List.mem_cons_of_mem _ hm)
    cases f with
    | zero => simp at hf
    | succ f' =>
      have hstep : findallFuel (f' + 1) ((c :: t') ++ s) = findallFuel f' (t' ++ s) := by
        show findallFuel (f' + 1) (c :: (t' ++ s)) = _
        simp only [findallFuel, if_neg hc]
      rw [hstep]
      have hft : (t' ++ s).length ≤ f' := by
        have : ((c :: t') ++ s).length = (t' ++ s).length + 1 := by simp
        omega
      rw [ih hr f' hft]
      have harith : f' - t'.length = (f' + 1) - (c :: t').length := by
        simp only [List.length_cons]
        omega
      rw [harith]

theorem findall_render : ∀ (segs : List Seg) (tail : List Char),
    SegsWF segs tail = true →
    ∀ f, (render segs tail).length ≤ f →
      findallFuel f (render segs tail) = segs.map Seg.name := by
  intro segs
  induction segs with
  | nil =>
    intro tail hwf f _
    simp only [SegsWF, Bool.not_eq_true'] at hwf
    simp only [render, List.map_nil]
    exact findallFuel_colonFree (hasChar_false_not_mem hwf) f
  | cons sg rest ih =>
    intro tail hwf f hf
    simp only [SegsWF, Bool.and_eq_true, Bool.not_eq_true'] at hwf
    obtain ⟨⟨⟨htxt, hvalid⟩, hbound⟩, hwf'⟩ := hwf
    have htxtmem : ':' ∉ sg.txt := hasChar_false_not_mem htxt
    have hflat : render (sg :: rest) tail
        = sg.txt ++ (':' :: (sg.name ++ render rest tail)) := rfl
    rw [hflat] at hf ⊢
    rw [findallFuel_skip htxtmem _ f hf]
    have hlen : (sg.txt ++ (':' :: (sg.name ++ render rest tail))).length
        = sg.txt.length + (sg.name.length + (render rest tail).length + 1) := by
      simp
    cases hg : f - sg.txt.length with
    | zero => omega
    | succ g' =>
      cases hname : sg.name with
      | nil => rw [hname] at hvalid; exact absurd hvalid (by simp [validIdent])
      | cons c2 nameTl =>
        rw [hname] at hvalid
        simp only [validIdent, Bool.and_eq_true, List.all_eq_true] at hvalid
        have hmunch : munch (nameTl ++ render rest tail) = (nameTl, render rest tail) :=
          munch_append (fun x hx => hvalid.2 x hx) hbound
        have hstep : findallFuel (g' + 1) (':' :: c2 :: (nameTl ++ render rest tail))
            = (c2 :: nameTl) :: findallFuel g' (render rest tail) := by
          simp [findallFuel, hmunch, hvalid.1]
        rw [show (':' :: (c2 :: nameTl ++ render rest tail))
              = ':' :: c2 :: (nameTl ++ render rest tail) from rfl, hstep]
        have hrec : findallFuel g' (render rest tail) = rest.map Seg.name := by
          apply ih tail hwf' g'
          omega
        rw [hrec, ← hname]
        rfl

/-- `findall` recovers exactly the token names of a well-formed
decomposition, in order. -/
theorem findall_render_eq {segs : List Seg} {tail : List Char}
    (hwf : SegsWF segs tail = true) :
    findall (render segs tail) = segs.map Seg.name :=
  findall_render segs tail hwf _ (Nat.le_refl _)

/-! ## Extraction lemmas for the side conditions -/

theorem SegsWF_parts : ∀ {segs : List Seg} {tail : List Char},
    SegsWF segs tail = true →
    (∀ sg ∈ segs, ':' ∉ sg.txt ∧ validIdent sg.name = true) ∧ ':' ∉ tail := by
  intro segs
  induction segs with
  | nil =>
    intro tail hwf
    simp only [SegsWF, Bool.not_eq_true'] at hwf
    exact ⟨fun sg h => by simp at h, hasChar_false_not_mem hwf⟩
  | cons sg rest ih =>
    intro tail hwf
    simp only [SegsWF, Bool.and_eq_true, Bool.not_eq_true'] at hwf
    obtain ⟨⟨⟨htxt, hvalid⟩, _⟩, hwf'⟩ := hwf
    obtain ⟨hrest, htail⟩ := ih hwf'
    refine ⟨?_, htail⟩
    intro sg' h
    rcases List.mem_cons.mp h with h1 | h1
    · exact h1 ▸ ⟨hasChar_false_not_mem htxt, hvalid⟩
    · exact hrest sg' h1

theorem charFree_parts {ch : Char} : ∀ {segs : List Seg} {tail : List Char},
    charFree ch segs tail = true →
    (∀ sg ∈ segs, ch ∉ sg.txt) ∧ ch ∉ tail := by
  intro segs
  induction segs with
  | nil =>
    intro tail h
    simp only [charFree, Bool.not_eq_true'] at h
    exact ⟨fun sg hm => by simp at hm, hasChar_false_not_mem h⟩
  | cons sg rest ih =>
    intro tail h
    simp only [charFree, Bool.and_eq_true, Bool.not_eq_true'] at h
    obtain ⟨hrest, htail⟩ := ih h.2
    refine ⟨?_, htail⟩
    intro sg' hm
    rcases List.mem_cons.mp hm with h1 | h1
    · exact h1 ▸ hasChar_false_not_mem h.1
    · exact hrest sg' h1

theorem validIdent_no_colon {n : List Char} (h : validIdent n = true) : ':' ∉ n := by
  cases n with
  | nil => simp
  | cons c cs =>
    simp only [validIdent, Bool.and_eq_true, List.all_eq_true] at h
    intro hm
    rcases List.mem_cons.mp hm with h1 | h1
    · rw [← h1] at h
      exact absurd h.1 (by decide)
    · exact absurd (h.2 ':' h1) (by decide)

theorem pairwiseNP_not_pre : ∀ {l : List (List Char)}, pairwiseNP l = true →
    ∀ a ∈ l, ∀ b ∈ l, a ≠ b → isPre a b = false := by
  intro l
  induction l with
  | nil => intro _ a ha; simp at ha
  | cons n0 rest ih =>
    intro h a ha b hb hab
    simp only [pairwiseNP, Bool.and_eq_true, List.all_eq_true, Bool.not_eq_true'] at h
    obtain ⟨hall, hrest⟩ := h
    rcases List.mem_cons.mp ha with ha1 | ha1 <;> rcases List.mem_cons.mp hb with hb1 | hb1
    · exact absurd (ha1.trans hb1.symm) hab
    · subst ha1; exact (hall b hb1).1
    · subst hb1; exact (hall a ha1).2
    · exact ih hrest a ha1 b hb1 hab

theorem pairwiseNP_nodup : ∀ {l : List (List Char)}, pairwiseNP l = true → l.Nodup := by
  intro l
  induction l with
  | nil => intro _; exact List.nodup_nil
  | cons n0 rest ih =>
    intro h
    simp only [pairwiseNP, Bool.and_eq_true, List.all_eq_true, Bool.not_eq_true'] at h
    obtain ⟨hall, hrest⟩ := h
    refine List.nodup_cons.mpr ⟨?_, ih hrest⟩
    intro hmem
    have h2 := (hall n0 hmem).1
    rw [isPre_refl] at h2
    simp at h2

theorem lit_mem_itemsOf : ∀ {segs : List Seg} {tail s : List Char},
    Item.lit s ∈ itemsOf segs tail → (∃ sg ∈ segs, s = sg.txt) ∨ s = tail := by
  intro segs
  induction segs with
  | nil =>
    intro tail s h
    simp only [itemsOf, List.mem_singleton] at h
    rw [Item.lit.injEq] at h
    exact Or.inr h
  | cons sg rest ih =>
    intro tail s h
    simp only [itemsOf, List.mem_cons] at h
    rcases h with h | h | h
    · rw [Item.lit.injEq] at h
      exact Or.inl ⟨sg, List.mem_cons_self _ _, h⟩
    · exact absurd h (by simp)
    · rcases ih h with ⟨sg', hm, he⟩ | he
      · exact Or.inl ⟨sg', List.mem_cons_of_mem _ hm, he⟩
      · exact Or.inr he

theorem tok_mem_itemsOf : ∀ {segs : List Seg} {tail m : List Char},
    Item.tok m ∈ itemsOf segs tail → ∃ sg ∈ segs, m = sg.name := by
  intro segs
  induction segs with
  | nil =>
    intro tail m h
    simp only [itemsOf, List.mem_singleton] at h
    exact absurd h (by simp)
  | cons sg rest ih =>
    intro tail m h
    simp only [itemsOf, List.mem_cons] at h
    rcases h with h | h | h
    · exact absurd h (by simp)
    · rw [Item.tok.injEq] at h
      exact ⟨sg, List.mem_cons_self _ _, h⟩
    · obtain ⟨sg', hm, he⟩ := ih h
      exact ⟨sg', List.mem_cons_of_mem _ hm, he⟩

/-! ## Unfolding `transform` -/

theorem transform_some_args (dt : DbType) (sql : List Char)
    {ps : List (List Char × Val)} (hps : ps ≠ []) :
    (transform dt sql (some ps)).2 = (findall sql).map (pyGet ps) := by
  unfold transform
  by_cases hdt : dt = DbType.postgres <;> simp [hps, hdt]

theorem transform_q_sql {dt : DbType} (hdt : dt ≠ DbType.postgres) (sql : List Char)
    {ps : List (List Char × Val)} (hps : ps ≠ []) :
    (transform dt sql (some ps)).1 =
      (findall sql).foldl (fun s n => replaceAll s (':' :: n) ['?']) sql := by
  unfold transform
  simp [hps, hdt]

theorem transform_pg_sql (sql : List Char)
    {ps : List (List Char × Val)} (hps : ps ≠ []) :
    (transform DbType.postgres sql (some ps)).1 =
      (findall sql).foldl
        (fun s n => replaceAll s (':' :: n) ((phFun (findall sql) 1 n).getD [])) sql := by
  unfold transform
  simp [hps]

theorem transform_empty_dict (dt : DbType) (sql : List Char) :
    transform dt sql (some []) = (sql, []) := by
  simp [transform]

theorem countD_zero {s : List Char} (h : '$' ∉ s) : countD s = 0 := by
  have h0 := countD_skip h ([] : List Char)
  rw [List.append_nil] at h0
  exact h0

/-- C1 (amended): for a well-formed named-parameter statement in which
each `:name` token occurs exactly once (the names are pairwise distinct
and none is a prefix of another) and whose literal text is free of
marker characters, translation to any dialect with a mapping covering
all names yields exactly N positional markers and an argument list of
length N, one entry per distinct name in first-occurrence order, bound
from the mapping.  (The unamended claim fails when a name textually
recurs — see the counterexample.) -/
theorem translator_distinct_names (dt : DbType) (segs : List Seg) (tail : List Char)
    (ps : List (List Char × Val))
    (hwf : SegsWF segs tail = true)
    (hq : charFree '?' segs tail = true)
    (hd : charFree '$' segs tail = true)
    (hnp : pairwiseNP (segs.map Seg.name) = true)
    (hcov : coversB ps (segs.map Seg.name) = true) :
    (segs.map Seg.name).Nodup ∧
    (transform dt (render segs tail) (some ps)).2 = (segs.map Seg.name).map (pyGet ps) ∧
    (transform dt (render segs tail) (some ps)).2.length = segs.length ∧
    markerCount dt (transform dt (render segs tail) (some ps)).1 = segs.length := by
  have hnodup : (segs.map Seg.name).Nodup := pairwiseNP_nodup hnp
  by_cases hps : ps = []
  · subst hps
    cases segs with
    | cons sg rest =>
      exfalso
      simp [coversB, pyGet] at hcov
    | nil =>
      rw [transform_empty_dict]
      refine ⟨by simp, by simp, by simp, ?_⟩
      show markerCount dt (render [] tail) = 0
      have htailq : '?' ∉ tail := (charFree_parts hq).2
      have htaild : '$' ∉ tail := (charFree_parts hd).2
      by_cases hdt : dt = DbType.postgres
      · simp only [markerCount, hdt, if_pos, render]
        simp [countD_zero htaild]
      · simp only [markerCount, render, if_neg hdt]
        simp [countQ_zero htailq]
  · have hnames : findall (render segs tail) = segs.map Seg.name := findall_render_eq hwf
    have hargs : (transform dt (render segs tail) (some ps)).2
        = (segs.map Seg.name).map (pyGet ps) := by
      rw [transform_some_args dt _ hps, hnames]
    refine ⟨hnodup, hargs, by rw [hargs]; simp, ?_⟩
    have hparts := SegsWF_parts hwf
    have hlits : ∀ s, Item.lit s ∈ itemsOf segs tail → ':' ∉ s := by
      intro s hs
      rcases lit_mem_itemsOf hs with ⟨sg, hm, he⟩ | he
      · exact he ▸ (hparts.1 sg hm).1
      · exact he ▸ hparts.2
    have htoks : ∀ m, Item.tok m ∈ itemsOf segs tail → ':' ∉ m ∧
        (∀ n' ∈ segs.map Seg.name, m ≠ n' →
          isPre n' m = false ∧ isPre m n' = false) := by
      intro m hm
      obtain ⟨sg, hsg, he⟩ := tok_mem_itemsOf hm
      have hmem : m ∈ segs.map Seg.name := by
        rw [he]
        exact List.mem_map_of_mem Seg.name hsg
      refine ⟨he ▸ validIdent_no_colon (hparts.1 sg hsg).2, ?_⟩
      intro n' hn' hmn
      exact ⟨pairwiseNP_not_pre hnp n' hn' m hmem (Ne.symm hmn),
             pairwiseNP_not_pre hnp m hmem n' hn' hmn⟩
    have hsegnames : ∀ sg ∈ segs, sg.name ∈ segs.map Seg.name :=
      fun sg h => List.mem_map_of_mem Seg.name h
    by_cases hdt : dt = DbType.postgres
    · subst hdt
      have hmkfree : ∀ n' ∈ segs.map Seg.name,
          ':' ∉ (phFun (segs.map Seg.name) 1 n').getD [] := by
        intro n' hn'
        obtain ⟨i, hi⟩ := phMarker_shape hn'
        rw [hi]
        exact dollarMarker_no_colon i
      have hchain : (transform DbType.postgres (render segs tail) (some ps)).1
          = finalRender (fun n => (phFun (segs.map Seg.name) 1 n).getD []) segs tail := by
        rw [transform_pg_sql _ hps]
        simp only [hnames]
        rw [show render segs tail = renderItems (itemsOf segs tail) from
              (renderItems_itemsOf segs tail).symm]
        rw [foldl_replace (fun n => (phFun (segs.map Seg.name) 1 n).getD [])
              (segs.map Seg.name) (itemsOf segs tail) hlits hmkfree htoks]
        rw [foldl_map_comm]
        exact map_fold_itemsOf _ _ segs tail hsegnames
      rw [hchain]
      show countD (finalRender _ segs tail) = segs.length
      apply countD_final _ segs tail hd
      intro sg hsg
      obtain ⟨i, hi⟩ := phMarker_shape (hsegnames sg hsg)
      obtain ⟨hne, hdig⟩ := digitsOf_spec i
      exact ⟨digitsOf i, by rw [hi]; rfl, hne, hdig⟩
    · have hchain : (transform dt (render segs tail) (some ps)).1
          = finalRender (fun _ => ['?']) segs tail := by
        rw [transform_q_sql hdt _ hps]
        simp only [hnames]
        rw [show render segs tail = renderItems (itemsOf segs tail) from
              (renderItems_itemsOf segs tail).symm]
        rw [foldl_replace (fun _ => ['?']) (segs.map Seg.name) (itemsOf segs tail)
              hlits (fun n' _ => by exact (by decide : ':' ∉ (['?'] : List Char))) htoks]
        rw [foldl_map_comm]
        exact map_fold_itemsOf _ _ segs tail hsegnames
      rw [hchain]
      have hmc : markerCount dt (finalRender (fun _ => ['?']) segs tail)
          = countQ (finalRender (fun _ => ['?']) segs tail) := by
        simp [markerCount, hdt]
      rw [hmc]
      apply countQ_final _ segs tail hq
      intro sg _
      decide

/-! ## Lookup through the Python dict merge of `BaseModel.update` -/

theorem pyGet_append (a b : List (List Char × Val)) (k : List Char) :
    pyGet (a ++ b) k =
      match pyGet a k with
      | some v => some v
      | none => pyGet b k := by
  induction a with
  | nil => rfl
  | cons kv rest ih =>
    obtain ⟨k0, v0⟩ := kv
    by_cases hk : k0 = k
    · simp [pyGet, hk]
    · simp only [List.cons_append, pyGet, if_neg hk]
      exact ih

theorem pyGet_override (vs fs : List (List Char × Val)) (k : List Char) :
    pyGet (vs.map (fun kv => (kv.1, (pyGet fs kv.1).getD kv.2))) k =
      (pyGet vs k).map (fun v => (pyGet fs k).getD v) := by
  induction vs with
  | nil => rfl
  | cons kv rest ih =>
    obtain ⟨k0, v0⟩ := kv
    by_cases hk : k0 = k
    · subst hk
      simp [pyGet]
    · simp only [List.map_cons, pyGet, if_neg hk]
      exact ih

theorem pyGet_filter_absent (vs fs : List (List Char × Val)) (k : List Char) :
    pyGet (fs.filter (fun kv => pyGet vs kv.1 = none)) k =
      if pyGet vs k = none then pyGet fs k else none := by
  induction fs with
  | nil => simp [pyGet]
  | cons kv rest ih =>
    obtain ⟨k0, w0⟩ := kv
    by_cases hkeep : pyGet vs k0 = none
    · rw [List.filter_cons_of_pos (by simp [hkeep])]
      by_cases hk : k0 = k
      · subst hk
        simp [pyGet, hkeep]
      · simp only [pyGet, if_neg hk]
        exact ih
    · rw [List.filter_cons_of_neg (by simp [hkeep])]
      by_cases hk : k0 = k
      · subst hk
        rw [ih, if_neg hkeep, if_neg hkeep]
      · simp only [pyGet, if_neg hk]
        exact ih

theorem pyGet_dictMerge (vs fs : List (List Char × Val)) (k : List Char) :
    pyGet (dictMerge vs fs) k =
      match pyGet vs k, pyGet fs k with
      | some _, some w => some w
      | some v, none => some v
      | none, w => w := by
  unfold dictMerge
  rw [pyGet_append, pyGet_override, pyGet_filter_absent]
  cases hv : pyGet vs k <;> cases hf : pyGet fs k <;> simp [hv, hf]

/-! ## Batch-loop characterization -/

theorem runBatch_spec (stmts : List (List Char)) (p : List Char → Bool) :
    runBatch stmts p =
      (stmts.takeWhile (fun s => !(p s)) ++ (stmts.dropWhile (fun s => !(p s))).take 1,
       stmts.all (fun s => !(p s))) := by
  induction stmts with
  | nil => rfl
  | cons s rest ih =>
    by_cases hp : p s = true
    · simp [runBatch, hp, List.takeWhile_cons, List.dropWhile_cons, List.all_cons]
    · have hp' : p s = false := by
        cases h : p s
        · rfl
        · exact absurd h hp
      simp [runBatch, hp', List.takeWhile_cons, List.dropWhile_cons, List.all_cons, ih]

/-! ## Claim theorems -/

/-- C1 witness: a concrete two-token statement with distinct
non-overlapping names, translated for the dollar dialect. -/
theorem translator_distinct_names_witness :
    SegsWF [Seg.mk ("UPDATE t SET v = ".toList) ("v1".toList),
            Seg.mk (" WHERE k = ".toList) ("id0".toList)] [] = true ∧
    charFree '?' [Seg.mk ("UPDATE t SET v = ".toList) ("v1".toList),
            Seg.mk (" WHERE k = ".toList) ("id0".toList)] [] = true ∧
    charFree '$' [Seg.mk ("UPDATE t SET v = ".toList) ("v1".toList),
            Seg.mk (" WHERE k = ".toList) ("id0".toList)] [] = true ∧
    pairwiseNP ([Seg.mk ("UPDATE t SET v = ".toList) ("v1".toList),
            Seg.mk (" WHERE k = ".toList) ("id0".toList)].map Seg.name) = true ∧
    coversB [("v1".toList, Val.s ("x".toList)), ("id0".toList, Val.i 7)]
      ([Seg.mk ("UPDATE t SET v = ".toList) ("v1".toList),
            Seg.mk (" WHERE k = ".toList) ("id0".toList)].map Seg.name) = true ∧
    (([Seg.mk ("UPDATE t SET v = ".toList) ("v1".toList),
            Seg.mk (" WHERE k = ".toList) ("id0".toList)].map Seg.name).Nodup ∧
     (transform DbType.postgres
        (render [Seg.mk ("UPDATE t SET v = ".toList) ("v1".toList),
            Seg.mk (" WHERE k = ".toList) ("id0".toList)] [])
        (some [("v1".toList, Val.s ("x".toList)), ("id0".toList, Val.i 7)])).2
       = ([Seg.mk ("UPDATE t SET v = ".toList) ("v1".toList),
            Seg.mk (" WHERE k = ".toList) ("id0".toList)].map Seg.name).map
          (pyGet [("v1".toList, Val.s ("x".toList)), ("id0".toList, Val.i 7)]) ∧
     (transform DbType.postgres
        (render [Seg.mk ("UPDATE t SET v = ".toList) ("v1".toList),
            Seg.mk (" WHERE k = ".toList) ("id0".toList)] [])
        (some [("v1".toList, Val.s ("x".toList)), ("id0".toList, Val.i 7)])).2.length
       = [Seg.mk ("UPDATE t SET v = ".toList) ("v1".toList),
            Seg.mk (" WHERE k = ".toList) ("id0".toList)].length ∧
     markerCount DbType.postgres
       (transform DbType.postgres
        (render [Seg.mk ("UPDATE t SET v = ".toList) ("v1".toList),
            Seg.mk (" WHERE k = ".toList) ("id0".toList)] [])
        (some [("v1".toList, Val.s ("x".toList)), ("id0".toList, Val.i 7)])).1
       = [Seg.mk ("UPDATE t SET v = ".toList) ("v1".toList),
            Seg.mk (" WHERE k = ".toList) ("id0".toList)].length) :=
  ⟨by decide, by decide, by decide, by decide, by decide,
   translator_distinct_names DbType.postgres
     [Seg.mk ("UPDATE t SET v = ".toList) ("v1".toList),
      Seg.mk (" WHERE k = ".toList) ("id0".toList)] []
     [("v1".toList, Val.s ("x".toList)), ("id0".toList, Val.i 7)]
     (by decide) (by decide) (by decide) (by decide) (by decide)⟩

/-- C1 counterexample: with the name `a` occurring twice, translation
yields two markers and a two-entry argument list although there is only
one distinct name; the postgres branch moreover numbers the single name
`$2` because its `uniq` list is not deduplicated. -/
theorem translator_duplicate_counterexample :
    findall ("SELECT :a, :a".toList) = ["a".toList, "a".toList] ∧
    (transform DbType.sqlite ("SELECT :a, :a".toList)
        (some [("a".toList, Val.i 1)])).2.length = 2 ∧
    countQ (transform DbType.sqlite ("SELECT :a, :a".toList)
        (some [("a".toList, Val.i 1)])).1 = 2 ∧
    transform DbType.postgres ("SELECT :a, :a".toList)
        (some [("a".toList, Val.i 1)])
      = ("SELECT $2, $2".toList, [some (Val.i 1), some (Val.i 1)]) := by decide

/-- C2: evaluated at a one-column row, the sqlite driver hands the facade
the raw positional tuple, not a column-name mapping, while the postgres
and mssql drivers normalize the same row to a mapping. -/
theorem sqlite_row_shape_bug :
    sqliteFetchone (some [Val.i 1]) = some (FetchedRow.tup [Val.i 1]) ∧
    (FetchedRow.tup [Val.i 1]).isRec = false ∧
    sqliteFetchall [[Val.i 1]] = [FetchedRow.tup [Val.i 1]] ∧
    postgresFetchone ["id".toList] (some [Val.i 1])
      = some (FetchedRow.record [("id".toList, Val.i 1)]) ∧
    mssqlFetchone ["id".toList] (some [Val.i 1])
      = some (FetchedRow.record [("id".toList, Val.i 1)]) := by decide

/-- C3 (amended): translation never fails.  With no mapping the SQL is
returned unchanged with an empty argument list even when it contains
`:` tokens, and with a mapping every referenced name missing from it is
silently bound to null (`params.get` returning `None`). -/
theorem transform_never_fails (dt : DbType) (sql : List Char)
    (ps : List (List Char × Val)) (hps : ps ≠ []) :
    transform dt sql none = (sql, []) ∧
    (transform dt sql (some ps)).2 = (findall sql).map (pyGet ps) ∧
    (∀ n ∈ findall sql, pyGet ps n = none →
      (none : Option Val) ∈ (transform dt sql (some ps)).2) := by
  refine ⟨rfl, transform_some_args dt sql hps, ?_⟩
  intro n hn hmiss
  rw [transform_some_args dt sql hps, List.mem_map]
  exact ⟨n, hn, hmiss⟩

/-- C3 witness: the statement `:a` with a mapping binding only `b`. -/
theorem transform_never_fails_witness :
    ([("b".toList, Val.i 1)] : List (List Char × Val)) ≠ [] ∧
    (transform DbType.sqlite (":a".toList) none = (":a".toList, []) ∧
     (transform DbType.sqlite (":a".toList) (some [("b".toList, Val.i 1)])).2
       = (findall (":a".toList)).map (pyGet [("b".toList, Val.i 1)]) ∧
     (∀ n ∈ findall (":a".toList), pyGet [("b".toList, Val.i 1)] n = none →
       (none : Option Val) ∈
         (transform DbType.sqlite (":a".toList) (some [("b".toList, Val.i 1)])).2)) :=
  ⟨by decide,
   transform_never_fails DbType.sqlite (":a".toList) [("b".toList, Val.i 1)] (by decide)⟩

/-- C3 counterexample: no error is signalled — the missing name is bound
to null, and an absent mapping returns the SQL untouched. -/
theorem translator_missing_name_counterexample :
    transform DbType.sqlite (":a".toList) (some [("b".toList, Val.i 1)])
      = ("?".toList, [none]) ∧
    transform DbType.sqlite (":a".toList) none = (":a".toList, []) := by decide

/-- C4 (amended): `update` never rejects overlapping filter/value keys;
it merges the two mappings (`{**values, **filters}`) so that on a
collision the filter binding silently overwrites the value binding, and
the UPDATE statement is built and handed to the engine regardless. -/
theorem update_merges_overlapping_keys (table : List Char)
    (filters values : List (List Char × Val)) (k : List Char)
    (h : (pyGet filters k).isSome = true) :
    pyGet (baseModelUpdate table filters values).2 k = pyGet filters k := by
  show pyGet (dictMerge values filters) k = pyGet filters k
  rw [pyGet_dictMerge]
  cases hf : pyGet filters k with
  | none => rw [hf] at h; simp at h
  | some w => cases hv : pyGet values k <;> simp

/-- C4 witness: colliding key `id`, bound to 1 by the filters and 2 by
the values; the merged parameters carry the filter value. -/
theorem update_merges_overlapping_keys_witness :
    (pyGet [("id".toList, Val.i 1)] ("id".toList)).isSome = true ∧
    pyGet (baseModelUpdate ("t".toList)
        [("id".toList, Val.i 1)] [("id".toList, Val.i 2)]).2 ("id".toList)
      = pyGet [("id".toList, Val.i 1)] ("id".toList) :=
  ⟨by decide,
   update_merges_overlapping_keys ("t".toList)
     [("id".toList, Val.i 1)] [("id".toList, Val.i 2)] ("id".toList) (by decide)⟩

/-- C4 counterexample: with overlapping key `id` the call is not
rejected — a full UPDATE statement is produced and the value-side
binding 2 is silently overwritten by the filter-side binding 1. -/
theorem update_overlap_counterexample :
    baseModelUpdate ("t".toList) [("id".toList, Val.i 1)] [("id".toList, Val.i 2)]
      = ("UPDATE t SET id = :id WHERE id = :id".toList,
         [("id".toList, Val.i 1)]) := by decide

/-- C5 (amended): the sqlite and postgres transaction scopes commit on
normal exit and roll back on error exit (postgres additionally releasing
its connection on every exit, sqlite leaving its single embedded
connection idle); the mssql scopes only close their cursor and
release/close the connection on exit, never committing or rolling back
automatically. -/
theorem transaction_exit_behavior :
    ∀ e : Bool,
      (TxAction.commit ∈ sqliteTxExit e ↔ e = false) ∧
      (TxAction.rollback ∈ sqliteTxExit e ↔ e = true) ∧
      (TxAction.commit ∈ pgTxExit e ↔ e = false) ∧
      (TxAction.rollback ∈ pgTxExit e ↔ e = true) ∧
      TxAction.releaseConn ∈ pgTxExit e ∧
      TxAction.releaseConn ∈ mssqlAsyncTxExit e ∧
      TxAction.commit ∉ mssqlAsyncTxExit e ∧
      TxAction.rollback ∉ mssqlAsyncTxExit e ∧
      TxAction.closeConn ∈ mssqlSyncTxExit e ∧
      TxAction.commit ∉ mssqlSyncTxExit e ∧
      TxAction.rollback ∉ mssqlSyncTxExit e := by decide

/-- C5 counterexample: the mssql transaction scopes neither commit on
normal exit nor roll back on error exit. -/
theorem mssql_tx_exit_counterexample :
    TxAction.commit ∉ mssqlAsyncTxExit false ∧
    TxAction.rollback ∉ mssqlAsyncTxExit true ∧
    TxAction.commit ∉ mssqlSyncTxExit false ∧
    TxAction.rollback ∉ mssqlSyncTxExit true := by decide

/-- C6 (amended): the per-table loops of `drop_all_tables` and
`clear_all_tables` abort on the first engine failure: statements are
issued for the longest failure-free prefix plus the single failing
statement, and the loop completes only when no statement fails.  (No
statement is issued for tables after the first failure.) -/
theorem batch_abort_semantics (dt : DbType) (tables : List (List Char))
    (p : List Char → Bool) :
    dropAllTables dt tables p =
      ((tables.map (dropStmt dt)).takeWhile (fun s => !(p s)) ++
        ((tables.map (dropStmt dt)).dropWhile (fun s => !(p s))).take 1,
       (tables.map (dropStmt dt)).all (fun s => !(p s))) ∧
    clearAllTables tables p =
      ((tables.map (fun t => "DELETE FROM ".toList ++ t)).takeWhile (fun s => !(p s)) ++
        ((tables.map (fun t => "DELETE FROM ".toList ++ t)).dropWhile
          (fun s => !(p s))).take 1,
       (tables.map (fun t => "DELETE FROM ".toList ++ t)).all (fun s => !(p s))) :=
  ⟨runBatch_spec _ p, runBatch_spec _ p⟩

/-- C6 counterexample: two tables, the first DROP/DELETE failing — the
second table never receives a statement, so the batch is not
best-effort. -/
theorem drop_batch_abort_counterexample :
    dropAllTables DbType.sqlite ["a".toList, "b".toList]
        (fun s => s = ("DROP TABLE IF EXISTS a".toList))
      = (["DROP TABLE IF EXISTS a".toList], false) ∧
    ("DROP TABLE IF EXISTS b".toList) ∉
      (dropAllTables DbType.sqlite ["a".toList, "b".toList]
        (fun s => s = ("DROP TABLE IF EXISTS a".toList))).1 ∧
    clearAllTables ["a".toList, "b".toList]
        (fun s => s = ("DELETE FROM a".toList))
      = (["DELETE FROM a".toList], false) := by decide

/-- C7: every operation of the disabled backend fails with the
backend-disabled error and performs no I/O (its action trace is empty);
the adapter holds no state to change. -/
theorem disabled_backend_raises (sql : List Char) (args : List (Option Val)) :
    (∃ msg, (disabledExecute sql args).1 = Except.error (DbError.dbDisabled msg)) ∧
    (disabledExecute sql args).2 = [] ∧
    (∃ msg, (disabledFetchone sql args).1 = Except.error (DbError.dbDisabled msg)) ∧
    (disabledFetchone sql args).2 = [] ∧
    (∃ msg, (disabledFetchall sql args).1 = Except.error (DbError.dbDisabled msg)) ∧
    (disabledFetchall sql args).2 = [] ∧
    (∃ msg, disabledTransaction.1 = Except.error (DbError.dbDisabled msg)) ∧
    disabledTransaction.2 = [] :=
  ⟨⟨disabledMsg, rfl⟩, rfl, ⟨disabledMsg, rfl⟩, rfl, ⟨disabledMsg, rfl⟩, rfl,
   ⟨disabledMsg, rfl⟩, rfl⟩

/-- C8 (amended): the mssql pool is created with the configured
`MSSQL_POOL_MIN` / `MSSQL_POOL_MAX` bounds, but the postgres pool is
created with the fixed literals `min_size=1, max_size=10`, not with
values from the process configuration. -/
theorem pool_sizes_source (cfg : Settings) :
    postgresInit cfg none = (some (1, 10), [InitAction.createPgPool 1 10]) ∧
    mssqlGetPool cfg none =
      (some (cfg.MSSQL_POOL_MIN, cfg.MSSQL_POOL_MAX),
       [InitAction.createOdbcPool cfg.MSSQL_POOL_MIN cfg.MSSQL_POOL_MAX]) :=
  ⟨rfl, rfl⟩

/-- C8 counterexample: two different configurations produce the same
postgres pool bounds `(1, 10)` — the bounds are fixed constants. -/
theorem postgres_pool_ignores_config :
    postgresPoolSizes (Settings.mk 5 50 30 []) = (1, 10) ∧
    postgresPoolSizes (Settings.mk 2 3 9 ("x".toList)) = (1, 10) ∧
    (Settings.mk 5 50 30 [] : Settings) ≠ Settings.mk 2 3 9 ("x".toList) := by decide

/-- C9: for every driver and every driver state, `init` is idempotent —
a second `init` leaves the state unchanged and performs no
resource-creation actions, so `init` twice equals `init` once. -/
theorem init_idempotent (s : Option Nat) (p q : Option (Int × Int)) (cfg : Settings) :
    sqliteInit (sqliteInit s).1 = ((sqliteInit s).1, []) ∧
    postgresInit cfg (postgresInit cfg p).1 = ((postgresInit cfg p).1, []) ∧
    mssqlGetPool cfg (mssqlGetPool cfg q).1 = ((mssqlGetPool cfg q).1, []) := by
  refine ⟨?_, ?_, ?_⟩
  · cases s <;> rfl
  · cases p <;> rfl
  · cases q <;> rfl

/-- C10: with the DISABLED backend selected, `list_tables` returns the
empty sequence and `get_table_schema` the empty mapping, with no error
and zero driver invocations — whatever the driver oracle would do. -/
theorem disabled_introspection_empty (driver : FetchOracle) (table : List Char) :
    listTables DbType.disabled driver = (Except.ok [], 0) ∧
    getTableSchema DbType.disabled table driver = (Except.ok [], 0) :=
  ⟨rfl, rfl⟩

end DBCore

